import Mathlib

/-!
Verification development for the modelforge repository: the neighbor-list
construction and equivariant message-passing representation pipeline, the
SPICE curation helpers, and the Zenodo file-listing helpers.

The geometric core (pairing engine, radial basis, PaiNN-style interaction,
mixing and readout) is modelled from the specification over the real
numbers; the curation and Zenodo helpers are translated from the Python
source in `modelforge/curation/spice_openff_curation.py` and
`modelforge/utils/zenodo.py`.
-/

namespace Modelforge

/-- Three-dimensional Euclidean space carrying atomic positions. -/
abbrev V3 : Type := EuclideanSpace ℝ (Fin 3)

/-- Error raised by the pairing engine on degenerate geometry. -/
inductive GeometryError where
  | coincidentAtoms : GeometryError
deriving DecidableEq, Repr

/-- Modelled from the spec (§4.1, candidate generation; the pairing-engine
source is not in the excerpt): all ordered candidate pairs of distinct atoms
belonging to the same molecule block, enumerated in a fixed index order. -/
def candidatePairs (n : ℕ) (sub : Fin n → ℕ) : List (Fin n × Fin n) :=
  ((List.finRange n).product (List.finRange n)).filter
    (fun p => decide (p.1 ≠ p.2 ∧ sub p.1 = sub p.2))

/-- Modelled from the spec (§4.1, cutoff filtering): candidate pairs whose
pairwise distance does not exceed the cutoff radius. -/
noncomputable def retainedPairs {n : ℕ} (pos : Fin n → V3) (sub : Fin n → ℕ)
    (cutoff : ℝ) : List (Fin n × Fin n) :=
  (candidatePairs n sub).filter
    (fun p => @decide (dist (pos p.1) (pos p.2) ≤ cutoff) (Classical.propDecidable _))

/-- One entry of a `PairList`: the two atom indices together with the
per-pair displacement vector and scalar distance (§3, PairList). -/
structure PairEntry (n : ℕ) where
  i : Fin n
  j : Fin n
  displacement : V3
  distance : ℝ

/-- Modelled from the spec (§3): the pair-list entry materialized for an
ordered pair, with displacement `pos j - pos i` and the Euclidean distance. -/
noncomputable def mkEntry {n : ℕ} (pos : Fin n → V3) (p : Fin n × Fin n) :
    PairEntry n :=
  { i := p.1
    j := p.2
    displacement := pos p.2 - pos p.1
    distance := dist (pos p.1) (pos p.2) }

/-- Modelled from the spec (§4.1, `build_pairs`; the source file of the
pairing engine is not in the excerpt): enumerate candidate pairs, signal
`GeometryError` if any candidate pair has zero distance (coincident atoms),
otherwise return the entries for all pairs within the cutoff. -/
noncomputable def buildPairs {n : ℕ} (pos : Fin n → V3) (sub : Fin n → ℕ)
    (cutoff : ℝ) : Except GeometryError (List (PairEntry n)) :=
  if _h : ∃ p ∈ candidatePairs n sub, dist (pos p.1) (pos p.2) = 0 then
    .error .coincidentAtoms
  else
    .ok ((retainedPairs pos sub cutoff).map (mkEntry pos))

lemma mem_candidatePairs {n : ℕ} {sub : Fin n → ℕ} {p : Fin n × Fin n} :
    p ∈ candidatePairs n sub ↔ p.1 ≠ p.2 ∧ sub p.1 = sub p.2 := by
  unfold candidatePairs
  rw [List.mem_filter]
  constructor
  · rintro ⟨-, hd⟩
    exact of_decide_eq_true hd
  · rintro ⟨h1, h2⟩
    refine ⟨?_, decide_eq_true ⟨h1, h2⟩⟩
    have : (p.1, p.2) ∈ (List.finRange n).product (List.finRange n) :=
      List.mem_product.mpr ⟨List.mem_finRange _, List.mem_finRange _⟩
    simpa using this

lemma mem_retainedPairs {n : ℕ} {pos : Fin n → V3} {sub : Fin n → ℕ}
    {cutoff : ℝ} {p : Fin n × Fin n} :
    p ∈ retainedPairs pos sub cutoff ↔
      p ∈ candidatePairs n sub ∧ dist (pos p.1) (pos p.2) ≤ cutoff := by
  unfold retainedPairs
  rw [List.mem_filter]
  constructor
  · rintro ⟨hmem, hd⟩
    exact ⟨hmem, of_decide_eq_true hd⟩
  · rintro ⟨hmem, hd⟩
    exact ⟨hmem, decide_eq_true hd⟩

lemma buildPairs_ok_iff {n : ℕ} {pos : Fin n → V3} {sub : Fin n → ℕ}
    {cutoff : ℝ} {pl : List (PairEntry n)} :
    buildPairs pos sub cutoff = .ok pl ↔
      (¬ ∃ p ∈ candidatePairs n sub, dist (pos p.1) (pos p.2) = 0) ∧
      pl = (retainedPairs pos sub cutoff).map (mkEntry pos) := by
  unfold buildPairs
  by_cases h : ∃ p ∈ candidatePairs n sub, dist (pos p.1) (pos p.2) = 0
  · rw [dif_pos h]
    constructor
    · intro hcontra
      exact absurd hcontra (by simp)
    · rintro ⟨hno, -⟩
      exact absurd h hno
  · rw [dif_neg h]
    constructor
    · intro hok
      refine ⟨h, ?_⟩
      exact (Except.ok.injEq _ _).mp hok.symm
    · rintro ⟨-, rfl⟩
      rfl

/-- Modelled from the spec (§4.4, unit direction vectors; the representation
source is not in the excerpt): the per-pair unit direction, the displacement
scaled by the inverse distance. -/
noncomputable def dirOf {n : ℕ} (pos : Fin n → V3) (p : Fin n × Fin n) : V3 :=
  (dist (pos p.1) (pos p.2))⁻¹ • (pos p.2 - pos p.1)

/-- Pairwise distance of an ordered candidate pair. -/
noncomputable def pairDist {n : ℕ} (pos : Fin n → V3) (p : Fin n × Fin n) : ℝ :=
  dist (pos p.1) (pos p.2)

/-- Modelled from the spec (§4.4-§4.5): the learned parameters of one
interaction/mixing layer.  `filt` maps radial features to per-channel gate
values, `phi` is the atomwise network applied to scalar features, `U` and
`Vmat` are the channel-mixing linear maps applied to the vector features,
and `mixFn` produces the mixing coefficients from the scalar features and
the invariant channel norms of the mixed vector features. -/
structure LayerParams (F B : ℕ) where
  filt : (Fin B → ℝ) → Fin 3 → Fin F → ℝ
  phi : (Fin F → ℝ) → Fin 3 → Fin F → ℝ
  U : Fin F → Fin F → ℝ
  Vmat : Fin F → Fin F → ℝ
  mixFn : (Fin F → ℝ) → (Fin F → ℝ) → Fin 3 → Fin F → ℝ

/-- Modelled from the spec (§4.2-§4.6): the whole model parameterisation:
embedding table, radial basis, the interaction/mixing layers, and the
per-atom readout head. -/
structure PaiNNParams (F B : ℕ) where
  embed : ℕ → Fin F → ℝ
  rbf : ℝ → Fin B → ℝ
  layers : List (LayerParams F B)
  readoutFn : (Fin F → ℝ) → ℝ

/-- Per-atom feature state (§3, FeatureState): invariant scalar channels
`q` and equivariant vector channels `mu`. -/
@[ext]
structure FeatureState (n F : ℕ) where
  q : Fin n → Fin F → ℝ
  mu : Fin n → Fin F → V3

/-- Modelled from the spec (§4.3): initial state, scalar features from the
embedding lookup, vector features all zero. -/
noncomputable def initState {n F : ℕ} (embed : ℕ → Fin F → ℝ) (Z : Fin n → ℕ) :
    FeatureState n F :=
  { q := fun i => embed (Z i)
    mu := fun _ _ => 0 }

/-- Modelled from the spec (§4.4): one interaction/message layer.  Scalar
messages combine the filtered radial features with the scalar features of
the sending atom; vector messages scale its vector features and the pair
unit direction by invariant gates; messages are scatter-added at the
receiving atom and applied as a residual update. -/
noncomputable def interaction {n F B : ℕ} (L : LayerParams F B)
    (rbf : ℝ → Fin B → ℝ) (dval : Fin n × Fin n → ℝ) (dir : Fin n × Fin n → V3)
    (pairs : List (Fin n × Fin n)) (s : FeatureState n F) : FeatureState n F :=
  let gate : Fin n × Fin n → Fin 3 → Fin F → ℝ := fun p k c =>
    L.filt (rbf (dval p)) k c * L.phi (s.q p.2) k c
  { q := fun i c => s.q i c +
      ((pairs.filter (fun p => decide (p.1 = i))).map (fun p => gate p 0 c)).sum
    mu := fun i c => s.mu i c +
      ((pairs.filter (fun p => decide (p.1 = i))).map
          (fun p => gate p 1 c • s.mu p.2 c + gate p 2 c • dir p)).sum }

/-- Modelled from the spec (§4.5): the mixing/update layer.  Vector channels
are mixed by the linear maps `U` and `Vmat`; only invariant projections
(channel norms and channel inner products) enter the scalar update, and the
vector update scales the mixed vectors by invariant gates. -/
noncomputable def mixing {n F B : ℕ} (L : LayerParams F B)
    (s : FeatureState n F) : FeatureState n F :=
  let Umu : Fin n → Fin F → V3 := fun i c => ∑ c2, L.U c c2 • s.mu i c2
  let Vmu : Fin n → Fin F → V3 := fun i c => ∑ c2, L.Vmat c c2 • s.mu i c2
  let a : Fin n → Fin 3 → Fin F → ℝ := fun i =>
    L.mixFn (s.q i) (fun c => ‖Vmu i c‖)
  { q := fun i c => s.q i c + a i 0 c + a i 1 c * (inner (Umu i c) (Vmu i c) : ℝ)
    mu := fun i c => s.mu i c + a i 2 c • Umu i c }

/-- Sequential application of all interaction/mixing layers. -/
noncomputable def runLayers {n F B : ℕ} (Ls : List (LayerParams F B))
    (rbf : ℝ → Fin B → ℝ) (dval : Fin n × Fin n → ℝ) (dir : Fin n × Fin n → V3)
    (pairs : List (Fin n × Fin n)) (s : FeatureState n F) : FeatureState n F :=
  Ls.foldl (fun st L => mixing L (interaction L rbf dval dir pairs st)) s

/-- Modelled from the spec (§2, control flow): the forward pass of the
representation pipeline, from positions to the final per-atom feature
state. -/
noncomputable def forward {n F B : ℕ} (P : PaiNNParams F B) (pos : Fin n → V3)
    (Z : Fin n → ℕ) (sub : Fin n → ℕ) (cutoff : ℝ) : FeatureState n F :=
  runLayers P.layers P.rbf (pairDist pos) (dirOf pos)
    (retainedPairs pos sub cutoff) (initState P.embed Z)

/-- Distinct elements of a list in first-seen order, with an accumulator of
elements already seen. -/
def firstSeenAux (seen : List ℕ) : List ℕ → List ℕ
  | [] => []
  | x :: xs =>
      if x ∈ seen then firstSeenAux seen xs
      else x :: firstSeenAux (x :: seen) xs

/-- Distinct elements of a list, in first-seen order. -/
def firstSeen (l : List ℕ) : List ℕ := firstSeenAux [] l

/-- Modelled from the spec (§4.6): group the per-atom contributions by their
molecule index and sum each group, one output per distinct molecule index,
in first-seen order. -/
def groupSum {α : Type} [AddCommMonoid α] (atoms : List (ℕ × α)) : List α :=
  (firstSeen (atoms.map Prod.fst)).map
    (fun m => ((atoms.filter (fun a => decide (a.1 = m))).map Prod.snd).sum)

/-- Modelled from the spec (§4.6, `readout`): reduce per-atom scalar
contributions to one value per molecule, grouped by the subsystem index. -/
def readout {α : Type} [AddCommMonoid α] {n : ℕ} (E : Fin n → α)
    (sub : Fin n → ℕ) : List α :=
  groupSum ((List.finRange n).map (fun i => (sub i, E i)))

/-- The per-molecule scalar outputs of the full pipeline: the readout head
applied to the final scalar features, summed per molecule. -/
noncomputable def forwardReadout {n F B : ℕ} (P : PaiNNParams F B)
    (pos : Fin n → V3) (Z : Fin n → ℕ) (sub : Fin n → ℕ) (cutoff : ℝ) :
    List ℝ :=
  readout (fun i => P.readoutFn ((forward P pos Z sub cutoff).q i)) sub

/-- Rotation action on a feature state: scalars untouched, every vector
channel rotated. -/
noncomputable def rotState {n F : ℕ} (R : V3 ≃ₗᵢ[ℝ] V3)
    (s : FeatureState n F) : FeatureState n F :=
  { q := s.q
    mu := fun i c => R (s.mu i c) }

lemma pairDist_rot {n : ℕ} (R : V3 ≃ₗᵢ[ℝ] V3) (pos : Fin n → V3) :
    pairDist (fun i => R (pos i)) = pairDist pos := by
  funext p
  simp [pairDist]

lemma retainedPairs_rot {n : ℕ} (R : V3 ≃ₗᵢ[ℝ] V3) (pos : Fin n → V3)
    (sub : Fin n → ℕ) (cutoff : ℝ) :
    retainedPairs (fun i => R (pos i)) sub cutoff =
      retainedPairs pos sub cutoff := by
  unfold retainedPairs
  refine List.filter_congr ?_
  intro p _
  rw [decide_eq_decide]
  simp

lemma dirOf_rot {n : ℕ} (R : V3 ≃ₗᵢ[ℝ] V3) (pos : Fin n → V3) :
    dirOf (fun i => R (pos i)) = fun p => R (dirOf pos p) := by
  funext p
  unfold dirOf
  rw [LinearIsometryEquiv.dist_map, ← map_sub, ← map_smul]

lemma interaction_rotState {n F B : ℕ} (L : LayerParams F B)
    (rbf : ℝ → Fin B → ℝ) (dval : Fin n × Fin n → ℝ)
    (dir : Fin n × Fin n → V3) (pairs : List (Fin n × Fin n))
    (R : V3 ≃ₗᵢ[ℝ] V3) (s : FeatureState n F) :
    interaction L rbf dval (fun p => R (dir p)) pairs (rotState R s) =
      rotState R (interaction L rbf dval dir pairs s) := by
  refine FeatureState.ext rfl ?_
  funext i c
  simp only [interaction, rotState]
  rw [map_add, map_list_sum]
  congr 1
  rw [List.map_map]
  refine congrArg List.sum (List.map_congr_left ?_)
  intro p _
  simp only [Function.comp_apply, map_add, map_smul]

lemma mixing_rotState {n F B : ℕ} (L : LayerParams F B) (R : V3 ≃ₗᵢ[ℝ] V3)
    (s : FeatureState n F) :
    mixing L (rotState R s) = rotState R (mixing L s) := by
  have hsum : ∀ (M : Fin F → Fin F → ℝ) (i : Fin n) (c : Fin F),
      (∑ c2, M c c2 • R (s.mu i c2)) = R (∑ c2, M c c2 • s.mu i c2) := by
    intro M i c
    rw [map_sum]
    refine Finset.sum_congr rfl ?_
    intro c2 _
    rw [map_smul]
  refine FeatureState.ext ?_ ?_
  · funext i c
    simp only [mixing, rotState]
    simp only [hsum, LinearIsometryEquiv.norm_map,
      LinearIsometryEquiv.inner_map_map]
  · funext i c
    simp only [mixing, rotState]
    simp only [hsum, LinearIsometryEquiv.norm_map, map_add, map_smul]

lemma runLayers_rotState {n F B : ℕ} (Ls : List (LayerParams F B))
    (rbf : ℝ → Fin B → ℝ) (dval : Fin n × Fin n → ℝ)
    (dir : Fin n × Fin n → V3) (pairs : List (Fin n × Fin n))
    (R : V3 ≃ₗᵢ[ℝ] V3) (s : FeatureState n F) :
    runLayers Ls rbf dval (fun p => R (dir p)) pairs (rotState R s) =
      rotState R (runLayers Ls rbf dval dir pairs s) := by
  induction Ls generalizing s with
  | nil => rfl
  | cons L Ls ih =>
      show runLayers (L :: Ls) _ _ _ _ _ = _
      unfold runLayers at ih ⊢
      simp only [List.foldl_cons]
      rw [interaction_rotState, mixing_rotState, ih]

lemma initState_rotState {n F : ℕ} (embed : ℕ → Fin F → ℝ) (Z : Fin n → ℕ)
    (R : V3 ≃ₗᵢ[ℝ] V3) :
    rotState R (initState embed Z) = initState embed Z := by
  refine FeatureState.ext rfl ?_
  funext i c
  simp only [initState, rotState, map_zero]

lemma forward_rot {n F B : ℕ} (P : PaiNNParams F B) (pos : Fin n → V3)
    (Z sub : Fin n → ℕ) (cutoff : ℝ) (R : V3 ≃ₗᵢ[ℝ] V3) :
    forward P (fun i => R (pos i)) Z sub cutoff =
      rotState R (forward P pos Z sub cutoff) := by
  calc forward P (fun i => R (pos i)) Z sub cutoff
      = runLayers P.layers P.rbf (pairDist pos) (fun p => R (dirOf pos p))
          (retainedPairs pos sub cutoff)
          (rotState R (initState P.embed Z)) := by
        unfold forward
        rw [pairDist_rot, retainedPairs_rot, dirOf_rot, initState_rotState]
    _ = rotState R (forward P pos Z sub cutoff) := by
        unfold forward
        rw [runLayers_rotState]

lemma pairDist_translate {n : ℕ} (pos : Fin n → V3) (t : V3) :
    pairDist (fun i => pos i + t) = pairDist pos := by
  funext p
  simp [pairDist, dist_add_right]

lemma retainedPairs_translate {n : ℕ} (pos : Fin n → V3) (sub : Fin n → ℕ)
    (cutoff : ℝ) (t : V3) :
    retainedPairs (fun i => pos i + t) sub cutoff =
      retainedPairs pos sub cutoff := by
  unfold retainedPairs
  refine List.filter_congr ?_
  intro p _
  rw [decide_eq_decide]
  rw [dist_add_right]

lemma dirOf_translate {n : ℕ} (pos : Fin n → V3) (t : V3) :
    dirOf (fun i => pos i + t) = dirOf pos := by
  funext p
  unfold dirOf
  rw [dist_add_right, add_sub_add_right_eq_sub]

lemma forward_translate {n F B : ℕ} (P : PaiNNParams F B) (pos : Fin n → V3)
    (Z sub : Fin n → ℕ) (cutoff : ℝ) (t : V3) :
    forward P (fun i => pos i + t) Z sub cutoff =
      forward P pos Z sub cutoff := by
  unfold forward
  rw [pairDist_translate, retainedPairs_translate, dirOf_translate]

/-- C1: applying any orthogonal transformation `R` of 3-space to all atomic
positions leaves every scalar (invariant) quantity of the forward pass
unchanged: the pairwise distances of the retained pairs, the radial-basis
features computed from them, the per-atom scalar features after all
interaction and mixing layers, and the final per-molecule readout. -/
theorem painn_scalar_rotation_invariance {n F B : ℕ} (P : PaiNNParams F B)
    (pos : Fin n → V3) (Z sub : Fin n → ℕ) (cutoff : ℝ) (R : V3 ≃ₗᵢ[ℝ] V3) :
    (retainedPairs (fun i => R (pos i)) sub cutoff).map
        (pairDist (fun i => R (pos i))) =
      (retainedPairs pos sub cutoff).map (pairDist pos) ∧
    (retainedPairs (fun i => R (pos i)) sub cutoff).map
        (fun p => P.rbf (pairDist (fun i => R (pos i)) p)) =
      (retainedPairs pos sub cutoff).map (fun p => P.rbf (pairDist pos p)) ∧
    (forward P (fun i => R (pos i)) Z sub cutoff).q =
      (forward P pos Z sub cutoff).q ∧
    forwardReadout P (fun i => R (pos i)) Z sub cutoff =
      forwardReadout P pos Z sub cutoff := by
  have hq : (forward P (fun i => R (pos i)) Z sub cutoff).q =
      (forward P pos Z sub cutoff).q := by
    rw [forward_rot]
    rfl
  refine ⟨?_, ?_, hq, ?_⟩
  · rw [retainedPairs_rot, pairDist_rot]
  · rw [retainedPairs_rot, pairDist_rot]
  · unfold forwardReadout
    rw [hq]

/-- C2: the equivariant vector quantities transform in lock-step with the
rotation: the retained pair list itself is unchanged, the per-pair unit
direction vectors computed from the rotated positions are the rotations of
the original unit directions, and per atom and channel the final vector
features of the forward pass on rotated positions equal `R` applied to the
original final vector features. -/
theorem painn_vector_rotation_equivariance {n F B : ℕ} (P : PaiNNParams F B)
    (pos : Fin n → V3) (Z sub : Fin n → ℕ) (cutoff : ℝ) (R : V3 ≃ₗᵢ[ℝ] V3) :
    retainedPairs (fun i => R (pos i)) sub cutoff =
      retainedPairs pos sub cutoff ∧
    (retainedPairs pos sub cutoff).map (dirOf (fun i => R (pos i))) =
      (retainedPairs pos sub cutoff).map (fun p => R (dirOf pos p)) ∧
    (forward P (fun i => R (pos i)) Z sub cutoff).mu =
      fun i c => R ((forward P pos Z sub cutoff).mu i c) := by
  refine ⟨retainedPairs_rot R pos sub cutoff, ?_, ?_⟩
  · rw [dirOf_rot]
  · rw [forward_rot]
    rfl

/-- C6: adding a constant offset to all positions changes neither the
scalar features, nor the vector features, nor the per-molecule readout of
the forward pass. -/
theorem painn_translation_invariance {n F B : ℕ} (P : PaiNNParams F B)
    (pos : Fin n → V3) (Z sub : Fin n → ℕ) (cutoff : ℝ) (t : V3) :
    (forward P (fun i => pos i + t) Z sub cutoff).q =
      (forward P pos Z sub cutoff).q ∧
    (forward P (fun i => pos i + t) Z sub cutoff).mu =
      (forward P pos Z sub cutoff).mu ∧
    forwardReadout P (fun i => pos i + t) Z sub cutoff =
      forwardReadout P pos Z sub cutoff := by
  have h := forward_translate P pos Z sub cutoff t
  refine ⟨by rw [h], by rw [h], ?_⟩
  unfold forwardReadout
  rw [h]

/-- C3: every pair list produced by the pairing engine satisfies the
`PairList` invariant: no self-pairs, every retained pair is within the
cutoff, the stored distance is the Euclidean norm of the stored displacement
(hence non-negative), and for every materialized pair the reverse pair is
also present, with equal distance and exactly negated displacement. -/
theorem pairlist_invariants {n : ℕ} (pos : Fin n → V3) (sub : Fin n → ℕ)
    (cutoff : ℝ) (pl : List (PairEntry n))
    (hpl : buildPairs pos sub cutoff = .ok pl) :
    ∀ e ∈ pl, e.i ≠ e.j ∧ 0 ≤ e.distance ∧ e.distance ≤ cutoff ∧
      e.distance = ‖e.displacement‖ ∧
      ∃ e2 ∈ pl, e2.i = e.j ∧ e2.j = e.i ∧ e2.distance = e.distance ∧
        e2.displacement = -e.displacement := by
  obtain ⟨-, rfl⟩ := buildPairs_ok_iff.mp hpl
  intro e he
  obtain ⟨p, hp, rfl⟩ := List.mem_map.mp he
  obtain ⟨hcand, hdist⟩ := mem_retainedPairs.mp hp
  obtain ⟨hne, hsub⟩ := mem_candidatePairs.mp hcand
  refine ⟨hne, dist_nonneg, hdist, ?_, ?_⟩
  · show dist (pos p.1) (pos p.2) = ‖pos p.2 - pos p.1‖
    rw [dist_eq_norm, norm_sub_rev]
  · refine ⟨mkEntry pos (p.2, p.1), ?_, rfl, rfl, dist_comm _ _, (neg_sub _ _).symm⟩
    refine List.mem_map.mpr ⟨(p.2, p.1), ?_, rfl⟩
    refine mem_retainedPairs.mpr ⟨mem_candidatePairs.mpr ⟨Ne.symm hne, hsub.symm⟩, ?_⟩
    rw [dist_comm]
    exact hdist

/-- Positions of the concrete two-atom system used to witness the pairing
invariants: one atom at the origin, one at unit distance along the first
axis. -/
noncomputable def pairWitnessPos : Fin 2 → V3 :=
  fun k => if k = 0 then 0 else EuclideanSpace.single 0 (1 : ℝ)

/-- Subsystem indices of the witness system: a single molecule. -/
def pairWitnessSub : Fin 2 → ℕ := fun _ => 0

lemma pairWitness_dist01 : dist (pairWitnessPos 0) (pairWitnessPos 1) = 1 := by
  unfold pairWitnessPos
  simp [dist_eq_norm, EuclideanSpace.norm_single]

lemma pairWitness_dist10 : dist (pairWitnessPos 1) (pairWitnessPos 0) = 1 := by
  rw [dist_comm]
  exact pairWitness_dist01

lemma pairWitness_candidates :
    candidatePairs 2 pairWitnessSub = [(0, 1), (1, 0)] := by decide

/-- The pair list the engine produces for the witness system. -/
noncomputable def pairWitnessList : List (PairEntry 2) :=
  [mkEntry pairWitnessPos (0, 1), mkEntry pairWitnessPos (1, 0)]

lemma pairWitness_retained :
    retainedPairs pairWitnessPos pairWitnessSub 1 = [(0, 1), (1, 0)] := by
  unfold retainedPairs
  rw [pairWitness_candidates]
  rw [List.filter_cons_of_pos, List.filter_cons_of_pos, List.filter_nil]
  · exact decide_eq_true (by rw [pairWitness_dist10])
  · exact decide_eq_true (by rw [pairWitness_dist01])

lemma pairWitness_buildPairs :
    buildPairs pairWitnessPos pairWitnessSub 1 = .ok pairWitnessList := by
  refine buildPairs_ok_iff.mpr ⟨?_, ?_⟩
  · rintro ⟨p, hp, hd⟩
    rw [pairWitness_candidates] at hp
    have : p = (0, 1) ∨ p = (1, 0) := by simpa using hp
    rcases this with rfl | rfl
    · rw [pairWitness_dist01] at hd
      exact one_ne_zero hd
    · rw [pairWitness_dist10] at hd
      exact one_ne_zero hd
  · rw [pairWitness_retained]
    rfl

/-- Witness for C3: the invariants instantiated on the concrete two-atom
system at unit separation and cutoff 1, for its first materialized pair. -/
theorem pairlist_invariants_witness :
    (mkEntry pairWitnessPos (0, 1)).i ≠ (mkEntry pairWitnessPos (0, 1)).j ∧
    0 ≤ (mkEntry pairWitnessPos (0, 1)).distance ∧
    (mkEntry pairWitnessPos (0, 1)).distance ≤ 1 ∧
    (mkEntry pairWitnessPos (0, 1)).distance =
      ‖(mkEntry pairWitnessPos (0, 1)).displacement‖ ∧
    ∃ e2 ∈ pairWitnessList, e2.i = (mkEntry pairWitnessPos (0, 1)).j ∧
      e2.j = (mkEntry pairWitnessPos (0, 1)).i ∧
      e2.distance = (mkEntry pairWitnessPos (0, 1)).distance ∧
      e2.displacement = -(mkEntry pairWitnessPos (0, 1)).displacement :=
  pairlist_invariants pairWitnessPos pairWitnessSub 1 pairWitnessList
    pairWitness_buildPairs (mkEntry pairWitnessPos (0, 1))
    (List.mem_cons_self _ _)

/-- C4: on any input with two distinct atoms of the same molecule at
identical positions (zero pairwise distance), the pairing engine signals
`GeometryError` and never returns a pair list for that input. -/
theorem pairing_coincident_atoms_error {n : ℕ} (pos : Fin n → V3)
    (sub : Fin n → ℕ) (cutoff : ℝ) (i j : Fin n) (hij : i ≠ j)
    (hsub : sub i = sub j) (hpos : pos i = pos j) :
    buildPairs pos sub cutoff = .error GeometryError.coincidentAtoms ∧
    ∀ pl : List (PairEntry n), buildPairs pos sub cutoff ≠ .ok pl := by
  have herr : buildPairs pos sub cutoff = .error GeometryError.coincidentAtoms := by
    unfold buildPairs
    rw [dif_pos]
    exact ⟨(i, j), mem_candidatePairs.mpr ⟨hij, hsub⟩, by rw [hpos, dist_self]⟩
  refine ⟨herr, ?_⟩
  intro pl hok
  rw [herr] at hok
  exact Except.noConfusion hok

/-- Witness for C4: a two-atom system with both atoms at the origin is
rejected by the pairing engine. -/
theorem pairing_coincident_atoms_error_witness :
    ((0 : Fin 2) ≠ (1 : Fin 2) ∧ pairWitnessSub 0 = pairWitnessSub 1 ∧
      (fun _ : Fin 2 => (0 : V3)) 0 = (fun _ : Fin 2 => (0 : V3)) 1) ∧
    buildPairs (fun _ : Fin 2 => (0 : V3)) pairWitnessSub 1 =
      .error GeometryError.coincidentAtoms ∧
    ∀ pl : List (PairEntry 2),
      buildPairs (fun _ : Fin 2 => (0 : V3)) pairWitnessSub 1 ≠ .ok pl :=
  ⟨⟨by decide, rfl, rfl⟩,
    pairing_coincident_atoms_error (fun _ => (0 : V3)) pairWitnessSub 1 0 1
      (by decide) rfl rfl⟩

lemma mem_firstSeenAux {seen l : List ℕ} {x : ℕ} :
    x ∈ firstSeenAux seen l ↔ x ∈ l ∧ x ∉ seen := by
  induction l generalizing seen with
  | nil => simp [firstSeenAux]
  | cons y ys ih =>
      unfold firstSeenAux
      by_cases hy : y ∈ seen
      · rw [if_pos hy, ih]
        constructor
        · rintro ⟨h1, h2⟩
          exact ⟨List.mem_cons_of_mem _ h1, h2⟩
        · rintro ⟨h1, h2⟩
          rcases List.mem_cons.mp h1 with rfl | h1
          · exact absurd hy h2
          · exact ⟨h1, h2⟩
      · rw [if_neg hy]
        rw [List.mem_cons, ih]
        constructor
        · rintro (rfl | ⟨h1, h2⟩)
          · exact ⟨List.mem_cons_self _ _, hy⟩
          · exact ⟨List.mem_cons_of_mem _ h1,
              fun hc => h2 (List.mem_cons_of_mem _ hc)⟩
        · rintro ⟨h1, h2⟩
          by_cases hxy : x = y
          · exact Or.inl hxy
          · rcases List.mem_cons.mp h1 with rfl | h1
            · exact Or.inl rfl
            · refine Or.inr ⟨h1, fun hc => ?_⟩
              rcases List.mem_cons.mp hc with h | h
              · exact hxy h
              · exact h2 h

lemma mem_firstSeen {l : List ℕ} {x : ℕ} : x ∈ firstSeen l ↔ x ∈ l := by
  unfold firstSeen
  rw [mem_firstSeenAux]
  simp

lemma nodup_firstSeenAux (seen l : List ℕ) : (firstSeenAux seen l).Nodup := by
  induction l generalizing seen with
  | nil => simp [firstSeenAux]
  | cons y ys ih =>
      unfold firstSeenAux
      by_cases hy : y ∈ seen
      · rw [if_pos hy]
        exact ih seen
      · rw [if_neg hy]
        refine List.nodup_cons.mpr ⟨?_, ih (y :: seen)⟩
        intro hc
        exact ((mem_firstSeenAux.mp hc).2) (List.mem_cons_self _ _)

lemma nodup_firstSeen (l : List ℕ) : (firstSeen l).Nodup :=
  nodup_firstSeenAux [] l

lemma firstSeenAux_pairwise (seen l : List ℕ) :
    (firstSeenAux seen l).Pairwise (fun a b => l.indexOf a < l.indexOf b) := by
  induction l generalizing seen with
  | nil => simp [firstSeenAux]
  | cons y ys ih =>
      unfold firstSeenAux
      by_cases hy : y ∈ seen
      · rw [if_pos hy]
        refine List.Pairwise.imp_of_mem ?_ (ih seen)
        intro a b ha hb hab
        have hay : a ≠ y := by
          rintro rfl
          exact (mem_firstSeenAux.mp ha).2 hy
        have hby : b ≠ y := by
          rintro rfl
          exact (mem_firstSeenAux.mp hb).2 hy
        rw [List.indexOf_cons_ne _ (Ne.symm hay), List.indexOf_cons_ne _ (Ne.symm hby)]
        exact Nat.succ_lt_succ hab
      · rw [if_neg hy]
        refine List.pairwise_cons.mpr ⟨?_, ?_⟩
        · intro b hb
          have hby : b ≠ y := by
            rintro rfl
            exact (mem_firstSeenAux.mp hb).2 (List.mem_cons_self _ _)
          rw [List.indexOf_cons_self, List.indexOf_cons_ne _ (Ne.symm hby)]
          exact Nat.succ_pos _
        · refine List.Pairwise.imp_of_mem ?_ (ih (y :: seen))
          intro a b ha hb hab
          have hay : a ≠ y := by
            rintro rfl
            exact (mem_firstSeenAux.mp ha).2 (List.mem_cons_self _ _)
          have hby : b ≠ y := by
            rintro rfl
            exact (mem_firstSeenAux.mp hb).2 (List.mem_cons_self _ _)
          rw [List.indexOf_cons_ne _ (Ne.symm hay), List.indexOf_cons_ne _ (Ne.symm hby)]
          exact Nat.succ_lt_succ hab

lemma firstSeen_pairwise (l : List ℕ) :
    (firstSeen l).Pairwise (fun a b => l.indexOf a < l.indexOf b) :=
  firstSeenAux_pairwise [] l

lemma firstSeen_length_eq_dedup (l : List ℕ) :
    (firstSeen l).length = l.dedup.length := by
  refine List.Perm.length_eq ?_
  refine (List.perm_ext_iff_of_nodup (nodup_firstSeen l) l.nodup_dedup).mpr ?_
  intro a
  rw [mem_firstSeen, List.mem_dedup]

lemma readout_eq_map_firstSeen {α : Type} [AddCommMonoid α] {n : ℕ}
    (E : Fin n → α) (sub : Fin n → ℕ) :
    readout E sub = (firstSeen ((List.finRange n).map sub)).map
      (fun m => (((List.finRange n).filter
        (fun i => decide (sub i = m))).map E).sum) := by
  unfold readout groupSum
  rw [List.map_map]
  have hfst : (Prod.fst ∘ fun i => (sub i, E i)) = sub := rfl
  rw [hfst]
  refine List.map_congr_left ?_
  intro m _
  rw [List.filter_map, List.map_map]
  rfl

/-- Subsystem indices of a ragged batch: one 5-atom molecule followed by
one 2-atom molecule. -/
def raggedSub : Fin 7 → ℕ := ![0, 0, 0, 0, 0, 1, 1]

/-- C5: readout groups the per-atom contributions by subsystem index and
sums each group: the output has exactly one entry per distinct subsystem
index (its length is the number of unique indices), the entries are the
group sums listed in the first-seen order of the indices, and a ragged
batch of one 5-atom and one 2-atom molecule yields exactly 2 output
scalars, each the sum over its molecule. -/
theorem readout_groups_by_subsystem {α : Type} [AddCommMonoid α] {n : ℕ}
    (E : Fin n → α) (sub : Fin n → ℕ) :
    (readout E sub).length = ((List.finRange n).map sub).dedup.length ∧
    readout E sub = (firstSeen ((List.finRange n).map sub)).map
      (fun m => (((List.finRange n).filter
        (fun i => decide (sub i = m))).map E).sum) ∧
    (firstSeen ((List.finRange n).map sub)).Nodup ∧
    (∀ m, m ∈ firstSeen ((List.finRange n).map sub) ↔
      m ∈ (List.finRange n).map sub) ∧
    (firstSeen ((List.finRange n).map sub)).Pairwise
      (fun a b => ((List.finRange n).map sub).indexOf a <
        ((List.finRange n).map sub).indexOf b) ∧
    (∀ E7 : Fin 7 → ℚ, (readout E7 raggedSub).length = 2) ∧
    readout (fun i : Fin 7 => ((i : ℕ) : ℤ)) raggedSub = [10, 11] := by
  have hlen : ∀ {β : Type} [AddCommMonoid β] {m : ℕ} (Eb : Fin m → β)
      (sb : Fin m → ℕ), (readout Eb sb).length =
        (firstSeen ((List.finRange m).map sb)).length := by
    intro β hins m Eb sb
    rw [readout_eq_map_firstSeen, List.length_map]
  refine ⟨?_, readout_eq_map_firstSeen E sub, nodup_firstSeen _,
    fun m => mem_firstSeen, firstSeen_pairwise _, ?_, by decide⟩
  · rw [hlen, firstSeen_length_eq_dedup]
  · intro E7
    rw [hlen]
    decide

/-- Modelled from the spec (§4.2, cutoff envelope; the source of the cutoff
module is not in the excerpt): the cosine cutoff envelope, equal to
`(1 + cos (pi d / c)) / 2` below the cutoff `c` and `0` from the cutoff
on. -/
noncomputable def cosineCutoff (c d : ℝ) : ℝ :=
  if d < c then (1 + Real.cos (Real.pi * d / c)) / 2 else 0

/-- The derivative of the cosine cutoff envelope. -/
noncomputable def cosineCutoffDeriv (c d : ℝ) : ℝ :=
  if d < c then -(Real.pi / (2 * c)) * Real.sin (Real.pi * d / c) else 0

lemma cosineCutoff_nonneg (c d : ℝ) : 0 ≤ cosineCutoff c d := by
  unfold cosineCutoff
  split
  · have := Real.neg_one_le_cos (Real.pi * d / c)
    linarith
  · exact le_refl 0

lemma cosineCutoff_le_one (c d : ℝ) : cosineCutoff c d ≤ 1 := by
  unfold cosineCutoff
  split
  · have := Real.cos_le_one (Real.pi * d / c)
    linarith
  · norm_num

lemma cosineCutoff_le_quad {c : ℝ} (hc : 0 < c) (x : ℝ) :
    cosineCutoff c x ≤ (Real.pi / (2 * c))^2 * (x - c)^2 := by
  unfold cosineCutoff
  have hK : 0 ≤ (Real.pi / (2 * c))^2 * (x - c)^2 := by positivity
  split
  · set t := Real.pi * x / c with ht
    have hcos : Real.cos (t - Real.pi) = -Real.cos t := Real.cos_sub_pi t
    have hb : 1 - (t - Real.pi)^2 / 2 ≤ Real.cos (t - Real.pi) :=
      Real.one_sub_sq_div_two_le_cos
    have h1 : 1 + Real.cos t ≤ (t - Real.pi)^2 / 2 := by
      rw [hcos] at hb
      linarith
    have ht2 : t - Real.pi = (Real.pi / c) * (x - c) := by
      rw [ht]
      field_simp
      ring
    have h3 : (1 + Real.cos t) / 2 ≤ (t - Real.pi)^2 / 4 := by linarith
    have h4 : (t - Real.pi)^2 / 4 ≤ (Real.pi / (2*c))^2 * (x - c)^2 := by
      rw [ht2]
      have hc2 : (c : ℝ) ≠ 0 := ne_of_gt hc
      refine le_of_eq ?_
      field_simp
      ring
    exact h3.trans h4
  · exact hK

lemma cosineCutoff_hasDeriv {c : ℝ} (hc : 0 < c) (x : ℝ) :
    HasDerivAt (cosineCutoff c) (cosineCutoffDeriv c x) x := by
  have hlin : ∀ y : ℝ, HasDerivAt (fun d : ℝ => Real.pi * d / c) (Real.pi / c) y := by
    intro y
    simpa using ((hasDerivAt_id y).const_mul Real.pi).div_const c
  rcases lt_trichotomy x c with hx | rfl | hx
  · have hsmooth : HasDerivAt (fun d => (1 + Real.cos (Real.pi * d / c)) / 2)
        ((-Real.sin (Real.pi * x / c) * (Real.pi / c)) / 2) x :=
      (((hlin x).cos).const_add 1).div_const 2
    have heq : (fun d => cosineCutoff c d) =ᶠ[nhds x]
        (fun d => (1 + Real.cos (Real.pi * d / c)) / 2) := by
      refine Filter.eventuallyEq_of_mem (IsOpen.mem_nhds isOpen_Iio hx) ?_
      intro y hy
      simp only [cosineCutoff, if_pos (Set.mem_Iio.mp hy)]
    have hval : cosineCutoffDeriv c x =
        (-Real.sin (Real.pi * x / c) * (Real.pi / c)) / 2 := by
      unfold cosineCutoffDeriv
      rw [if_pos hx]
      ring
    rw [hval]
    exact hsmooth.congr_of_eventuallyEq heq
  · rw [hasDerivAt_iff_isLittleO]
    have hcc : cosineCutoff x x = 0 := by
      unfold cosineCutoff
      rw [if_neg (lt_irrefl x)]
    have hder : cosineCutoffDeriv x x = 0 := by
      unfold cosineCutoffDeriv
      rw [if_neg (lt_irrefl x)]
    rw [hcc, hder]
    rw [Asymptotics.isLittleO_iff]
    intro C hC
    set K := (Real.pi / (2 * x))^2 with hK
    have hKnn : 0 ≤ K := by positivity
    rw [Metric.eventually_nhds_iff]
    refine ⟨C / (K + 1), by positivity, ?_⟩
    intro y hy
    have hbound : |cosineCutoff x y| ≤ K * (y - x)^2 := by
      rw [abs_of_nonneg (cosineCutoff_nonneg x y)]
      exact cosineCutoff_le_quad hc y
    have hdist : |y - x| < C / (K + 1) := by
      simpa [Real.dist_eq] using hy
    have hchain : K * (y - x)^2 ≤ C * |y - x| := by
      have h1 : K * (y - x)^2 = K * |y - x| * |y - x| := by
        rw [← sq_abs (y - x)]
        ring
      rw [h1]
      have h2 : K * |y - x| ≤ C := by
        have h3 : K * |y - x| ≤ K * (C / (K + 1)) :=
          mul_le_mul_of_nonneg_left hdist.le hKnn
        have h5 : K / (K + 1) ≤ 1 := by
          rw [div_le_one (by positivity)]
          linarith
        have h4 : K * (C / (K + 1)) ≤ C :=
          calc K * (C / (K + 1)) = C * (K / (K + 1)) := by ring
            _ ≤ C * 1 := mul_le_mul_of_nonneg_left h5 hC.le
            _ = C := mul_one C
        exact h3.trans h4
      exact mul_le_mul_of_nonneg_right h2 (abs_nonneg _)
    calc ‖cosineCutoff x y - 0 - (y - x) • (0:ℝ)‖
        = |cosineCutoff x y| := by simp [Real.norm_eq_abs]
      _ ≤ K * (y - x)^2 := hbound
      _ ≤ C * |y - x| := hchain
      _ = C * ‖y - x‖ := by rw [Real.norm_eq_abs]
  · have heq : (fun d => cosineCutoff c d) =ᶠ[nhds x] (fun _ => (0:ℝ)) := by
      refine Filter.eventuallyEq_of_mem (IsOpen.mem_nhds isOpen_Ioi hx) ?_
      intro y hy
      simp only [cosineCutoff, if_neg (not_lt.mpr (le_of_lt (Set.mem_Ioi.mp hy)))]
    have hval : cosineCutoffDeriv c x = 0 := by
      unfold cosineCutoffDeriv
      rw [if_neg (not_lt.mpr (le_of_lt hx))]
    rw [hval]
    exact (hasDerivAt_const x (0:ℝ)).congr_of_eventuallyEq heq

lemma cosineCutoffDeriv_continuousAt {c : ℝ} (hc : 0 < c) :
    ContinuousAt (cosineCutoffDeriv c) c := by
  have hval : cosineCutoffDeriv c c = 0 := by
    unfold cosineCutoffDeriv
    rw [if_neg (lt_irrefl c)]
  unfold ContinuousAt
  rw [hval]
  have hcne : (c : ℝ) ≠ 0 := ne_of_gt hc
  have hbound : ∀ y, ‖cosineCutoffDeriv c y‖ ≤
      (Real.pi / (2 * c)) * |Real.sin (Real.pi * y / c)| := by
    intro y
    unfold cosineCutoffDeriv
    rw [Real.norm_eq_abs]
    split
    · rw [abs_mul, abs_neg, abs_of_nonneg (by positivity : (0:ℝ) ≤ Real.pi / (2 * c))]
    · rw [abs_zero]
      positivity
  refine squeeze_zero_norm hbound ?_
  have hcont : Continuous (fun y => (Real.pi / (2 * c)) * |Real.sin (Real.pi * y / c)|) := by
    refine continuous_const.mul ?_
    exact (Real.continuous_sin.comp ((continuous_const.mul continuous_id).div_const c)).abs
  have hlim := hcont.tendsto c
  have hzero : (Real.pi / (2 * c)) * |Real.sin (Real.pi * c / c)| = 0 := by
    rw [mul_div_assoc, div_self hcne, mul_one, Real.sin_pi]
    simp
  rw [hzero] at hlim
  exact hlim

/-- C7: the cosine cutoff envelope maps every distance into `[0,1]`, is
exactly `1` at distance `0` and exactly `0` at and beyond the cutoff, is
differentiable everywhere with the stated derivative, is continuous at the
cutoff boundary along with its derivative (C¹ smoothness there), and the
difference of envelope values on either side of the cutoff vanishes as the
offset goes to `0`. -/
theorem cutoff_envelope_smooth (c : ℝ) (hc : 0 < c) :
    (∀ d, 0 ≤ cosineCutoff c d ∧ cosineCutoff c d ≤ 1) ∧
    cosineCutoff c 0 = 1 ∧
    (∀ d, c ≤ d → cosineCutoff c d = 0) ∧
    (∀ x, HasDerivAt (cosineCutoff c) (cosineCutoffDeriv c x) x) ∧
    ContinuousAt (cosineCutoff c) c ∧
    ContinuousAt (cosineCutoffDeriv c) c ∧
    Filter.Tendsto (fun e => cosineCutoff c (c - e) - cosineCutoff c (c + e))
      (nhdsWithin 0 (Set.Ioi 0)) (nhds 0) := by
  have hder := cosineCutoff_hasDeriv hc
  have hcontc : ContinuousAt (cosineCutoff c) c := (hder c).continuousAt
  refine ⟨fun d => ⟨cosineCutoff_nonneg c d, cosineCutoff_le_one c d⟩, ?_, ?_,
    hder, hcontc, cosineCutoffDeriv_continuousAt hc, ?_⟩
  · unfold cosineCutoff
    rw [if_pos hc]
    norm_num
  · intro d hd
    unfold cosineCutoff
    rw [if_neg (not_lt.mpr hd)]
  · have hcc : cosineCutoff c c = 0 := by
      unfold cosineCutoff
      rw [if_neg (lt_irrefl c)]
    have hmap : ∀ s : ℝ, Filter.Tendsto (fun e : ℝ => c + s * e)
        (nhdsWithin 0 (Set.Ioi 0)) (nhds c) := by
      intro s
      have hcont2 : Continuous (fun e : ℝ => c + s * e) :=
        continuous_const.add (continuous_const.mul continuous_id)
      have h1 := hcont2.tendsto 0
      rw [mul_zero, add_zero] at h1
      exact h1.mono_left nhdsWithin_le_nhds
    have h1 : Filter.Tendsto (fun e : ℝ => cosineCutoff c (c - e))
        (nhdsWithin 0 (Set.Ioi 0)) (nhds 0) := by
      have := hcontc.tendsto.comp (by simpa [sub_eq_add_neg, mul_comm] using hmap (-1))
      rwa [hcc] at this
    have h2 : Filter.Tendsto (fun e : ℝ => cosineCutoff c (c + e))
        (nhdsWithin 0 (Set.Ioi 0)) (nhds 0) := by
      have := hcontc.tendsto.comp (by simpa using hmap 1)
      rwa [hcc] at this
    simpa using h1.sub h2

/-- Witness for C7: all cutoff-envelope properties at the concrete cutoff
radius `1`. -/
theorem cutoff_envelope_smooth_witness :
    (0:ℝ) < 1 ∧
    ((∀ d, 0 ≤ cosineCutoff 1 d ∧ cosineCutoff 1 d ≤ 1) ∧
    cosineCutoff 1 0 = 1 ∧
    (∀ d, (1:ℝ) ≤ d → cosineCutoff 1 d = 0) ∧
    (∀ x, HasDerivAt (cosineCutoff 1) (cosineCutoffDeriv 1 x) x) ∧
    ContinuousAt (cosineCutoff 1) 1 ∧
    ContinuousAt (cosineCutoffDeriv 1) 1 ∧
    Filter.Tendsto (fun e => cosineCutoff 1 (1 - e) - cosineCutoff 1 (1 + e))
      (nhdsWithin 0 (Set.Ioi 0)) (nhds 0)) :=
  ⟨by norm_num, cutoff_envelope_smooth 1 (by norm_num)⟩

instance {ε α : Type} [DecidableEq ε] [DecidableEq α] : DecidableEq (Except ε α)
  | .error e1, .error e2 =>
      if h : e1 = e2 then .isTrue (h ▸ rfl)
      else .isFalse (fun hc => h (Except.error.inj hc))
  | .error _, .ok _ => .isFalse (fun hc => Except.noConfusion hc)
  | .ok _, .error _ => .isFalse (fun hc => Except.noConfusion hc)
  | .ok a1, .ok a2 =>
      if h : a1 = a2 then .isTrue (h ▸ rfl)
      else .isFalse (fun hc => h (Except.ok.inj hc))

/-- Chemical elements of the SPICE reference-energy table in
`spice_openff_curation.py`. -/
inductive Element where
  | Br | C | Ca | Cl | F | H | I | K | Li | Mg | N | Na | O | P | S
deriving DecidableEq, Repr

/-- The tabulated per-atom energies by formal charge, from
`_calculate_reference_energy` in `spice_openff_curation.py`, in dictionary
order. -/
def atom_energy : Element → List (ℤ × ℚ)
  | .Br => [(-1, -2574.2451510945853), (0, -2574.1167240829964)]
  | .C => [(-1, -37.91424135791358), (0, -37.87264507233593), (1, -37.45349214963933)]
  | .Ca => [(2, -676.9528465198214)]
  | .Cl => [(-1, -460.3350243496703), (0, -460.1988762285739)]
  | .F => [(-1, -99.91298732343974), (0, -99.78611622985483)]
  | .H => [(-1, -0.5027370838721259), (0, -0.4987605100487531), (1, 0)]
  | .I => [(-1, -297.8813829975981), (0, -297.76228914445625)]
  | .K => [(1, -599.8025677513111)]
  | .Li => [(1, -7.285254714046546)]
  | .Mg => [(2, -199.2688420040449)]
  | .N => [(-1, -54.602291095426494), (0, -54.62327513368922), (1, -54.08594142587869)]
  | .Na => [(1, -162.11366478783253)]
  | .O => [(-1, -75.17101657391741), (0, -75.11317840410095), (1, -74.60241514396725)]
  | .P => [(0, -341.3059197024934), (1, -340.9258392474849)]
  | .S => [(-1, -398.2405387031612), (0, -398.1599636677874), (1, -397.7746615977658)]

/-- Dictionary lookup `atom_energy[s][c]`, `none` when the charge state is
not tabulated (a Python `KeyError`). -/
def lookupEnergy (e : Element) (c : ℤ) : Option ℚ :=
  ((atom_energy e).find? (fun p => decide (p.1 = c))).map Prod.snd

/-- The default charge of an element: the charge of its lexicographically
smallest `(energy, charge)` pair, as computed by
`sorted(energies)[0][1]`. -/
def defaultCharge (e : Element) : ℤ :=
  match (atom_energy e).map (fun p => (p.2, p.1)) with
  | [] => 0
  | x :: xs =>
      (xs.foldl (fun best a =>
        if a.1 < best.1 ∨ (a.1 = best.1 ∧ a.2 < best.2) then a else best) x).2

/-- The inner selection loop of `_calculate_reference_energy`: scan the atom
indices, track the best `(index, energy difference)` among atoms whose
shifted charge is tabulated, and fail like the Python `KeyError` when the
current charge of a candidate atom is itself not tabulated. -/
def findBestAux (symbol : List Element) (charge : List ℤ) (delta : ℤ) :
    List ℕ → Option (ℕ × ℚ) → Except Unit (Option (ℕ × ℚ))
  | [], st => .ok st
  | i :: is, st =>
      match lookupEnergy (symbol.getD i .H) (charge.getD i 0 + delta) with
      | none => findBestAux symbol charge delta is st
      | some enew =>
          match lookupEnergy (symbol.getD i .H) (charge.getD i 0) with
          | none => .error ()
          | some ecur =>
              match st with
              | none => findBestAux symbol charge delta is (some (i, enew - ecur))
              | some (bi, be) =>
                  if enew - ecur < be then
                    findBestAux symbol charge delta is (some (i, enew - ecur))
                  else
                    findBestAux symbol charge delta is (some (bi, be))

/-- The full best-index scan over all atoms; `none` models
`best_index == -1`. -/
def findBest (symbol : List Element) (charge : List ℤ) (delta : ℤ) :
    Except Unit (Option (ℕ × ℚ)) :=
  findBestAux symbol charge delta (List.range symbol.length) none

/-- One iteration of the charge-balancing loop: `charge[best_index] += delta`,
where a sentinel `best_index == -1` makes Python update the last entry. -/
def balanceStep (symbol : List Element) (charge : List ℤ) (delta : ℤ) :
    Except Unit (List ℤ) :=
  match findBest symbol charge delta with
  | .error e => .error e
  | .ok none =>
      .ok (charge.set (charge.length - 1)
        (charge.getD (charge.length - 1) 0 + delta))
  | .ok (some (bi, _)) => .ok (charge.set bi (charge.getD bi 0 + delta))

/-- The `while delta != 0` loop of `_calculate_reference_energy`, with an
explicit fuel argument; the callers pass `|total - sum(charge)|`, which is
exactly the number of iterations the loop performs. -/
def balanceLoop (symbol : List Element) (total : ℤ) :
    ℕ → List ℤ → Except Unit (List ℤ)
  | 0, charge => .ok charge
  | fuel + 1, charge =>
      if (total - charge.sum).sign = 0 then .ok charge
      else
        match balanceStep symbol charge ((total - charge.sum).sign) with
        | .error e => .error e
        | .ok charge2 => balanceLoop symbol total fuel charge2

/-- Model of `_calculate_reference_energy`, on the parsed molecule (element and
formal charge per atom): balance the default charges against the total
formal charge, then sum the tabulated per-atom energies; `Except.error`
models the Python `KeyError`. -/
def calcRefEnergy (atoms : List (Element × ℤ)) : Except Unit ℚ :=
  let symbol := atoms.map Prod.fst
  let total := (atoms.map Prod.snd).sum
  let charge0 := symbol.map defaultCharge
  match balanceLoop symbol total ((total - charge0.sum).natAbs) charge0 with
  | .error e => .error e
  | .ok charge =>
      match (List.zip symbol charge).mapM (fun sc => lookupEnergy sc.1 sc.2) with
      | none => .error ()
      | some energies => .ok energies.sum

lemma sum_set_add (l : List ℤ) (i : ℕ) (d : ℤ) (h : i < l.length) :
    (l.set i (l.getD i 0 + d)).sum = l.sum + d := by
  induction l generalizing i with
  | nil => simp at h
  | cons x xs ih =>
      cases i with
      | zero =>
          simp [List.set]
          ring
      | succ m =>
          have hm : m < xs.length := by simpa using h
          simp only [List.set, List.getD_cons_succ, List.sum_cons]
          rw [ih m hm]
          ring

lemma findBestAux_index_lt {symbol : List Element} {charge : List ℤ}
    {delta : ℤ} {l : List ℕ} {st st2 : Option (ℕ × ℚ)}
    (hl : ∀ j ∈ l, j < symbol.length)
    (hst : ∀ bi be, st = some (bi, be) → bi < symbol.length)
    (h : findBestAux symbol charge delta l st = .ok st2) :
    ∀ bi be, st2 = some (bi, be) → bi < symbol.length := by
  induction l generalizing st with
  | nil =>
      intro bi be hbe
      unfold findBestAux at h
      have hss : st = st2 := Except.ok.inj h
      exact hst bi be (by rw [hss]; exact hbe)
  | cons i is ih =>
      have hi : i < symbol.length := hl i (List.mem_cons_self _ _)
      have his : ∀ j ∈ is, j < symbol.length :=
        fun j hj => hl j (List.mem_cons_of_mem _ hj)
      unfold findBestAux at h
      rcases hnew : lookupEnergy (symbol.getD i .H) (charge.getD i 0 + delta) with
        _ | enew
      · rw [hnew] at h
        dsimp only at h
        exact ih his hst h
      · rw [hnew] at h
        dsimp only at h
        rcases hcur : lookupEnergy (symbol.getD i .H) (charge.getD i 0) with _ | ecur
        · rw [hcur] at h
          dsimp only at h
          exact absurd h (by simp)
        · rw [hcur] at h
          dsimp only at h
          rcases st with _ | ⟨bi0, be0⟩
          · dsimp only at h
            refine ih his ?_ h
            intro bi be hbe
            obtain ⟨h1, h2⟩ := Prod.mk.inj (Option.some.inj hbe)
            exact h1 ▸ hi
          · dsimp only at h
            by_cases hlt : enew - ecur < be0
            · rw [if_pos hlt] at h
              refine ih his ?_ h
              intro bi be hbe
              obtain ⟨h1, h2⟩ := Prod.mk.inj (Option.some.inj hbe)
              exact h1 ▸ hi
            · rw [if_neg hlt] at h
              refine ih his ?_ h
              intro bi be hbe
              obtain ⟨h1, h2⟩ := Prod.mk.inj (Option.some.inj hbe)
              exact h1 ▸ hst bi0 be0 rfl

lemma natAbs_sub_sign {d : ℤ} (hd : d ≠ 0) :
    (d - d.sign).natAbs + 1 = d.natAbs := by
  rcases lt_trichotomy d 0 with hlt | rfl | hgt
  · rw [Int.sign_eq_neg_one_of_neg hlt]
    omega
  · exact absurd rfl hd
  · rw [Int.sign_eq_one_of_pos hgt]
    omega

lemma balanceStep_sum {symbol : List Element} {charge : List ℤ} {delta : ℤ}
    (hlen : charge.length = symbol.length) (hne : charge ≠ [])
    {charge2 : List ℤ} (h : balanceStep symbol charge delta = .ok charge2) :
    charge2.sum = charge.sum + delta ∧ charge2.length = charge.length := by
  unfold balanceStep at h
  rcases hfb : findBest symbol charge delta with e | ost
  · rw [hfb] at h
    exact absurd h (by simp)
  · rw [hfb] at h
    rcases ost with _ | ⟨bi, be⟩
    · dsimp only at h
      have hc2 : charge2 = charge.set (charge.length - 1)
          (charge.getD (charge.length - 1) 0 + delta) := (Except.ok.inj h).symm
      have hlt : charge.length - 1 < charge.length := by
        have : 0 < charge.length := List.length_pos.mpr hne
        omega
      rw [hc2]
      exact ⟨sum_set_add _ _ _ hlt, List.length_set _ _ _⟩
    · dsimp only at h
      have hbi : bi < symbol.length := by
        unfold findBest at hfb
        refine findBestAux_index_lt ?_ ?_ hfb bi be rfl
        · intro j hj
          exact List.mem_range.mp hj
        · intro bi0 be0 hc
          cases hc
      have hbi2 : bi < charge.length := by omega
      have hc2 : charge2 = charge.set bi (charge.getD bi 0 + delta) :=
        (Except.ok.inj h).symm
      rw [hc2]
      exact ⟨sum_set_add _ _ _ hbi2, List.length_set _ _ _⟩

lemma balanceLoop_exact (symbol : List Element) (total : ℤ)
    (hempty : symbol = [] → total = 0) :
    ∀ (fuel : ℕ) (charge : List ℤ), charge.length = symbol.length →
      (total - charge.sum).natAbs ≤ fuel →
      (∀ charge2, balanceLoop symbol total fuel charge = .ok charge2 →
        charge2.sum = total) ∧
      (∀ k, balanceLoop symbol total (fuel + k) charge =
        balanceLoop symbol total fuel charge) := by
  intro fuel
  induction fuel with
  | zero =>
      intro charge hlen hfuel
      have hd : total - charge.sum = 0 :=
        Int.natAbs_eq_zero.mp (Nat.le_zero.mp hfuel)
      have hsign : (total - charge.sum).sign = 0 := by rw [hd]; rfl
      constructor
      · intro charge2 h2
        have : charge = charge2 := Except.ok.inj h2
        rw [← this]
        omega
      · intro k
        cases k with
        | zero => rfl
        | succ m =>
            rw [Nat.zero_add]
            show balanceLoop symbol total (m + 1) charge = _
            simp only [balanceLoop]
            rw [if_pos hsign]
  | succ m ih =>
      intro charge hlen hfuel
      by_cases hsign : (total - charge.sum).sign = 0
      · have hd : total - charge.sum = 0 := Int.sign_eq_zero_iff_zero.mp hsign
        constructor
        · intro charge2 h2
          simp only [balanceLoop] at h2
          rw [if_pos hsign] at h2
          have : charge = charge2 := Except.ok.inj h2
          rw [← this]
          omega
        · intro k
          have hl : balanceLoop symbol total (m + 1) charge = .ok charge := by
            simp only [balanceLoop]
            rw [if_pos hsign]
          rw [hl]
          cases k with
          | zero => exact hl
          | succ j =>
              have : m + 1 + (j + 1) = (m + 1 + j) + 1 := by omega
              rw [this]
              simp only [balanceLoop]
              rw [if_pos hsign]
      · have hdne : total - charge.sum ≠ 0 := by
          intro hc
          exact hsign (by rw [hc]; rfl)
        have hne : charge ≠ [] := by
          intro hc
          have h0 : symbol = [] := by
            have := hlen
            rw [hc] at this
            exact List.eq_nil_of_length_eq_zero this.symm
          have := hempty h0
          rw [hc] at hdne
          simp [this] at hdne
        rcases hstep : balanceStep symbol charge ((total - charge.sum).sign)
            with e | charge2
        · constructor
          · intro charge2 h2
            simp only [balanceLoop] at h2
            rw [if_neg hsign, hstep] at h2
            exact absurd h2 (by simp)
          · intro k
            have hl : balanceLoop symbol total (m + 1) charge = .error e := by
              simp only [balanceLoop]
              rw [if_neg hsign, hstep]
            rw [hl]
            cases k with
            | zero => exact hl
            | succ j =>
                have : m + 1 + (j + 1) = (m + 1 + j) + 1 := by omega
                rw [this]
                simp only [balanceLoop]
                rw [if_neg hsign, hstep]
        · obtain ⟨hsum2, hlen2⟩ := balanceStep_sum hlen hne hstep
          have hdec : (total - charge2.sum).natAbs ≤ m := by
            have he : total - charge2.sum =
                (total - charge.sum) - (total - charge.sum).sign := by
              rw [hsum2]
              ring
            have := natAbs_sub_sign hdne
            rw [he]
            omega
          obtain ⟨ihok, ihextra⟩ := ih charge2 (hlen2.trans hlen) hdec
          constructor
          · intro charge3 h3
            simp only [balanceLoop] at h3
            rw [if_neg hsign, hstep] at h3
            exact ihok charge3 h3
          · intro k
            have hl : balanceLoop symbol total (m + 1) charge =
                balanceLoop symbol total m charge2 := by
              simp only [balanceLoop]
              rw [if_neg hsign, hstep]
            rw [hl]
            have : m + 1 + k = (m + k) + 1 := by omega
            rw [this]
            have hl2 : balanceLoop symbol total ((m + k) + 1) charge =
                balanceLoop symbol total (m + k) charge2 := by
              simp only [balanceLoop]
              rw [if_neg hsign, hstep]
            rw [hl2]
            exact ihextra k

/-- C8 (amended): the charge-balancing loop of `_calculate_reference_energy`
always terminates: each iteration strictly reduces the absolute difference
between the total formal charge and the sum of per-atom charges by one, and
the fuel `|total - sum(default charges)|` is exact, so any extra fuel leaves
the result unchanged.  Moreover, whenever the function returns a value
(rather than raising `KeyError`), that value is the sum of tabulated
per-atom energies for a charge assignment whose charges sum to the total
formal charge. -/
theorem referenceEnergy_terminates_and_balances (atoms : List (Element × ℤ)) :
    (∀ charge : List ℤ, charge.length = (atoms.map Prod.fst).length →
      charge ≠ [] → ((atoms.map Prod.snd).sum - charge.sum).sign ≠ 0 →
      ∀ charge2, balanceStep (atoms.map Prod.fst) charge
          (((atoms.map Prod.snd).sum - charge.sum).sign) = .ok charge2 →
        ((atoms.map Prod.snd).sum - charge2.sum).natAbs + 1 =
          ((atoms.map Prod.snd).sum - charge.sum).natAbs) ∧
    (∀ k, balanceLoop (atoms.map Prod.fst) ((atoms.map Prod.snd).sum)
        ((((atoms.map Prod.snd).sum -
          ((atoms.map Prod.fst).map defaultCharge).sum).natAbs) + k)
        ((atoms.map Prod.fst).map defaultCharge) =
      balanceLoop (atoms.map Prod.fst) ((atoms.map Prod.snd).sum)
        (((atoms.map Prod.snd).sum -
          ((atoms.map Prod.fst).map defaultCharge).sum).natAbs)
        ((atoms.map Prod.fst).map defaultCharge)) ∧
    (∀ q, calcRefEnergy atoms = .ok q →
      ∃ charge energies, charge.sum = (atoms.map Prod.snd).sum ∧
        (List.zip (atoms.map Prod.fst) charge).mapM
          (fun sc => lookupEnergy sc.1 sc.2) = some energies ∧
        q = energies.sum) := by
  have hempty : atoms.map Prod.fst = [] → (atoms.map Prod.snd).sum = 0 := by
    intro h
    have : atoms = [] := List.map_eq_nil_iff.mp h
    rw [this]
    rfl
  have hlen0 : ((atoms.map Prod.fst).map defaultCharge).length =
      (atoms.map Prod.fst).length := List.length_map _ _
  refine ⟨?_, ?_, ?_⟩
  · intro charge hlen hne hsign charge2 hstep
    obtain ⟨hsum2, -⟩ := balanceStep_sum hlen hne hstep
    have hdne : (atoms.map Prod.snd).sum - charge.sum ≠ 0 := by
      intro hc
      exact hsign (by rw [hc]; rfl)
    have he : (atoms.map Prod.snd).sum - charge2.sum =
        ((atoms.map Prod.snd).sum - charge.sum) -
          ((atoms.map Prod.snd).sum - charge.sum).sign := by
      rw [hsum2]
      ring
    rw [he]
    exact natAbs_sub_sign hdne
  · intro k
    exact (balanceLoop_exact (atoms.map Prod.fst) ((atoms.map Prod.snd).sum)
      hempty _ _ hlen0 (le_refl _)).2 k
  · intro q hq
    simp only [calcRefEnergy] at hq
    rcases hloop : balanceLoop (atoms.map Prod.fst) ((atoms.map Prod.snd).sum)
        (((atoms.map Prod.snd).sum -
          ((atoms.map Prod.fst).map defaultCharge).sum).natAbs)
        ((atoms.map Prod.fst).map defaultCharge) with e | charge
    · rw [hloop] at hq
      exact absurd hq (by simp)
    · rw [hloop] at hq
      dsimp only at hq
      rcases hmm : (List.zip (atoms.map Prod.fst) charge).mapM
          (fun sc => lookupEnergy sc.1 sc.2) with _ | energies
      · rw [hmm] at hq
        exact absurd hq (by simp)
      · rw [hmm] at hq
        dsimp only at hq
        have hqe : energies.sum = q := Except.ok.inj hq
        have hsum : charge.sum = (atoms.map Prod.snd).sum :=
          (balanceLoop_exact (atoms.map Prod.fst) ((atoms.map Prod.snd).sum)
            hempty _ _ hlen0 (le_refl _)).1 charge hloop
        exact ⟨charge, energies, hsum, hmm, hqe.symm⟩

/-- Counterexample for C8 as stated: for a lone calcium atom with formal
charge 0 (SMILES `[Ca]`, an element of the table), the balancing loop pushes
the calcium charge out of its tabulated charge states (only `+2` is
tabulated) and the final energy lookup raises `KeyError` instead of
returning a tabulated sum. -/
theorem referenceEnergy_counterexample :
    calcRefEnergy [(Element.Ca, 0)] = .error () := by decide

/-- Witness for C8: the loop invariants exercised on a lone lithium cation
system and the success case exercised on the empty molecule. -/
theorem referenceEnergy_witness :
    (([1] : List ℤ).length = ([(Element.Li, 0)].map Prod.fst).length ∧
     ([1] : List ℤ) ≠ [] ∧
     ((([(Element.Li, 0)].map Prod.snd).sum - ([1] : List ℤ).sum).sign ≠ 0) ∧
     balanceStep ([(Element.Li, 0)].map Prod.fst) [1]
       ((([(Element.Li, 0)].map Prod.snd).sum - ([1] : List ℤ).sum).sign) =
         .ok [0] ∧
     ((([(Element.Li, 0)].map Prod.snd).sum - ([0] : List ℤ).sum).natAbs + 1 =
       (([(Element.Li, 0)].map Prod.snd).sum - ([1] : List ℤ).sum).natAbs)) ∧
    (balanceLoop ([(Element.Li, 0)].map Prod.fst)
        (([(Element.Li, 0)].map Prod.snd).sum)
        (((([(Element.Li, 0)].map Prod.snd).sum -
          (([(Element.Li, 0)].map Prod.fst).map defaultCharge).sum).natAbs) + 1)
        (([(Element.Li, 0)].map Prod.fst).map defaultCharge) =
      balanceLoop ([(Element.Li, 0)].map Prod.fst)
        (([(Element.Li, 0)].map Prod.snd).sum)
        ((([(Element.Li, 0)].map Prod.snd).sum -
          (([(Element.Li, 0)].map Prod.fst).map defaultCharge).sum).natAbs)
        (([(Element.Li, 0)].map Prod.fst).map defaultCharge)) ∧
    (calcRefEnergy [] = .ok 0 ∧
     ∃ charge energies, charge.sum = (([] : List (Element × ℤ)).map Prod.snd).sum ∧
       (List.zip (([] : List (Element × ℤ)).map Prod.fst) charge).mapM
         (fun sc => lookupEnergy sc.1 sc.2) = some energies ∧
       (0 : ℚ) = energies.sum) :=
  ⟨⟨by decide, by decide, by decide, by decide,
    (referenceEnergy_terminates_and_balances [(Element.Li, 0)]).1 [1]
      (by decide) (by decide) (by decide) [0] (by decide)⟩,
   (referenceEnergy_terminates_and_balances [(Element.Li, 0)]).2.1 1,
   by decide,
   (referenceEnergy_terminates_and_balances []).2.2 0 (by decide)⟩

/-- The grouping loop of `_process_downloaded`: walk the id-sorted keys,
collect the keys of the current molecule in `temp`, and on a change of
molecule id flush the conformer-sorted `temp` into the accumulator.  As in
the Python source, the final `temp` group is never flushed after the
loop. -/
def groupFlushLoop (cur : ℕ) (temp acc : List (ℕ × ℕ)) :
    List (ℕ × ℕ) → List (ℕ × ℕ)
  | [] => acc
  | v :: rest =>
      if v.1 = cur then groupFlushLoop cur (temp ++ [v]) acc rest
      else groupFlushLoop v.1 [v]
        (acc ++ List.insertionSort (fun a b => a.2 ≤ b.2) temp) rest

/-- The key-sorting step of `_process_downloaded` on record keys of the
form `{numerical_id}-{conformer_number}`, modelled as pairs: stable-sort by
numerical id, then walk the groups sorting each by conformer number. -/
def sortRecordKeys (keys : List (ℕ × ℕ)) : List (ℕ × ℕ) :=
  match List.insertionSort (fun a b => a.1 ≤ b.1) keys with
  | [] => []
  | p :: rest => groupFlushLoop p.1 [] [] (p :: rest)

/-- C9, evaluated at the failing input: for the two keys `1-1` and `2-1`
the sorting step returns only `1-1`; the keys of the last molecule group
are dropped, so the output is not a permutation of the input. -/
theorem sortRecordKeys_drops_last_group :
    sortRecordKeys [(1, 1), (2, 1)] = [(1, 1)] ∧
    (2, 1) ∉ sortRecordKeys [(1, 1), (2, 1)] := by decide

/-- Suffix test on strings, `str.endswith(pat)`, via the character lists. -/
def strEndsWith (s pat : String) : Bool := pat.data.isSuffixOf s.data

/-- Prefix test on strings, `str.startswith(pat)`. -/
def strStartsWith (s pat : String) : Bool := pat.data.isPrefixOf s.data

/-- Substring test on strings, `pat in s`. -/
def strContains (s pat : String) : Bool :=
  s.data.tails.any (fun t => pat.data.isPrefixOf t)

/-- Split a character list on a separator character, like `str.split`. -/
def splitOnChar (c : Char) : List Char → List (List Char)
  | [] => [[]]
  | x :: xs =>
      match splitOnChar c xs with
      | [] => [[x]]
      | g :: gs => if x = c then [] :: g :: gs else (x :: g) :: gs

/-- The last `/`-separated component of a string, `s.split('/')[-1]`. -/
def lastSegment (s : String) : String :=
  String.mk ((splitOnChar '/' s.data).getLastD [])

/-- The record-id sanitisation in `get_zenodo_datafiles`: a URL is replaced
by its last path component. -/
def sanitizeRecordId (rid : String) : String :=
  if strStartsWith rid "http" then lastSegment rid else rid

/-- Model of `get_zenodo_datafiles` from `zenodo.py`, with the Zenodo file listing
abstracted as a function from record id to either an error (connection
failure or bad response) or the list of file links: keep exactly the links
whose name ends with the requested extension, in listing order. -/
def get_zenodo_datafiles (listing : String → Except String (List String))
    (record_id ext : String) : Except String (List String) :=
  match listing (sanitizeRecordId record_id) with
  | .error e => .error e
  | .ok files => .ok (files.filter (fun f => strEndsWith f ext))

/-- The fetch step of `hdf5_from_zenodo`: resolve a DOI when the record
string looks like one, then query the `hdf5.gz` links. -/
def hdf5Fetch (resolve : String → Except String String)
    (listing : String → Except String (List String)) (record : String) :
    Except String (List String) :=
  if (!(strContains record "zenodo.org/record/")) &&
      strContains (lastSegment record) "zenodo." then
    match resolve record with
    | .error e => .error e
    | .ok url => get_zenodo_datafiles listing url "hdf5.gz"
  else get_zenodo_datafiles listing record "hdf5.gz"

/-- Model of `hdf5_from_zenodo` from `zenodo.py`, with the DOI resolution and the
file listing abstracted as functions: fetch the `hdf5.gz` links for the
record and raise rather than return an empty list. -/
def hdf5_from_zenodo (resolve : String → Except String String)
    (listing : String → Except String (List String)) (record : String) :
    Except String (List String) :=
  match hdf5Fetch resolve listing record with
  | .error e => .error e
  | .ok urls =>
      if urls.isEmpty then .error "No files with extension hdf5.gz were found."
      else .ok urls

lemma get_zenodo_ok_members {listing : String → Except String (List String)}
    {rid ext : String} {l : List String}
    (h : get_zenodo_datafiles listing rid ext = .ok l) :
    ∀ u ∈ l, strEndsWith u ext = true := by
  unfold get_zenodo_datafiles at h
  rcases hl : listing (sanitizeRecordId rid) with e | files
  · rw [hl] at h
    exact absurd h (by simp)
  · rw [hl] at h
    dsimp only at h
    have hfl : files.filter (fun f => strEndsWith f ext) = l := Except.ok.inj h
    intro u hu
    rw [← hfl] at hu
    exact (List.mem_filter.mp hu).2

lemma hdf5Fetch_ok_members {resolve : String → Except String String}
    {listing : String → Except String (List String)} {record : String}
    {l : List String} (h : hdf5Fetch resolve listing record = .ok l) :
    ∀ u ∈ l, strEndsWith u "hdf5.gz" = true := by
  unfold hdf5Fetch at h
  split at h
  · rcases hr : resolve record with e | url
    · rw [hr] at h
      exact absurd h (by simp)
    · rw [hr] at h
      dsimp only at h
      exact get_zenodo_ok_members h
  · exact get_zenodo_ok_members h

/-- C10: for every record string and every behaviour of the DOI resolution
and Zenodo file listing, `hdf5_from_zenodo` either fails or returns a
non-empty list of URLs that all end in `hdf5.gz` (it fails rather than
returning an empty list), and whenever the listing is available
`get_zenodo_datafiles` returns exactly the file links ending with the
requested extension, in listing order (a sublist of the listing containing
precisely the matching links). -/
theorem zenodo_hdf5_urls (resolve : String → Except String String)
    (listing : String → Except String (List String)) (record : String) :
    (∀ urls, hdf5_from_zenodo resolve listing record = .ok urls →
      urls ≠ [] ∧ ∀ u ∈ urls, strEndsWith u "hdf5.gz" = true) ∧
    (∀ rid ext files, listing (sanitizeRecordId rid) = .ok files →
      get_zenodo_datafiles listing rid ext =
        .ok (files.filter (fun f => strEndsWith f ext)) ∧
      (files.filter (fun f => strEndsWith f ext)).Sublist files ∧
      ∀ u, u ∈ files.filter (fun f => strEndsWith f ext) ↔
        u ∈ files ∧ strEndsWith u ext = true) := by
  constructor
  · intro urls h
    unfold hdf5_from_zenodo at h
    rcases hf : hdf5Fetch resolve listing record with e | l
    · rw [hf] at h
      exact absurd h (by simp)
    · rw [hf] at h
      dsimp only at h
      by_cases hemp : l.isEmpty
      · rw [if_pos hemp] at h
        exact absurd h (by simp)
      · rw [if_neg hemp] at h
        have hul : l = urls := Except.ok.inj h
        rw [← hul]
        refine ⟨?_, hdf5Fetch_ok_members hf⟩
        intro hc
        rw [hc] at hemp
        exact hemp rfl
  · intro rid ext files hl
    refine ⟨?_, List.filter_sublist files, ?_⟩
    · unfold get_zenodo_datafiles
      rw [hl]
    · intro u
      rw [List.mem_filter]

/-- Witness for C10: a constant listing with a single `hdf5.gz` file and a
plain record id. -/
theorem zenodo_hdf5_urls_witness :
    (hdf5_from_zenodo (fun _ => .ok "r") (fun _ => .ok ["a.hdf5.gz"]) "123" =
      .ok ["a.hdf5.gz"] ∧
     (["a.hdf5.gz"] : List String) ≠ [] ∧
     ∀ u ∈ (["a.hdf5.gz"] : List String), strEndsWith u "hdf5.gz" = true) ∧
    ((fun _ : String => (.ok ["a.hdf5.gz"] : Except String (List String)))
        (sanitizeRecordId "123") = .ok ["a.hdf5.gz"] ∧
     get_zenodo_datafiles (fun _ => .ok ["a.hdf5.gz"]) "123" ".gz" =
       .ok ((["a.hdf5.gz"] : List String).filter (fun f => strEndsWith f ".gz")) ∧
     ((["a.hdf5.gz"] : List String).filter
       (fun f => strEndsWith f ".gz")).Sublist ["a.hdf5.gz"] ∧
     ∀ u, u ∈ (["a.hdf5.gz"] : List String).filter
         (fun f => strEndsWith f ".gz") ↔
       u ∈ (["a.hdf5.gz"] : List String) ∧ strEndsWith u ".gz" = true) :=
  by
  have h1 := (zenodo_hdf5_urls (fun _ => .ok "r")
    (fun _ => .ok ["a.hdf5.gz"]) "123").1 ["a.hdf5.gz"] (by decide)
  have h2 := (zenodo_hdf5_urls (fun _ => .ok "r")
    (fun _ => .ok ["a.hdf5.gz"]) "123").2 "123" ".gz" ["a.hdf5.gz"] (by decide)
  exact ⟨⟨by decide, h1.1, h1.2⟩, by decide, h2.1, h2.2.1, h2.2.2⟩

end Modelforge
